import Mathlib

/-!
Verification of `create_dark_panels.py`.

The script iterates over the files of a directory, and for every filename
ending in `.svg` but not in `-dark.svg` it reads the file, applies four
literal string replacements (Python `str.replace`) to the contents, and
writes the result to a sibling file whose name is obtained by replacing
`.svg` with `-dark.svg` in the original filename.

The embedding models file names and file contents as `List Char`, the
directory as an association list from names to contents, and Python's
`str.replace` as a left-to-right scan replacing each non-overlapping
occurrence of the pattern.
-/

set_option maxRecDepth 10000

namespace CreateDarkPanels

/-- Fuel-indexed scanner implementing Python `str.replace` on character
lists: at each position, if `old` matches, emit `nw` and skip past the
match, otherwise copy one character and move on.  The scanner consumes at
least one character per step, so fuel `s.length` always suffices. -/
def pyReplaceGo (old nw : List Char) : Nat → List Char → List Char
  | 0, s => s
  | _ + 1, [] => []
  | fuel + 1, c :: rest =>
    if old.isPrefixOf (c :: rest) then
      nw ++ pyReplaceGo old nw fuel (rest.drop (old.length - 1))
    else
      c :: pyReplaceGo old nw fuel rest

/-- Python `content.replace(old, nw)` on character lists: replace all
non-overlapping occurrences of `old` by `nw`, scanning left to right.
(Every call site in the script passes a non-empty `old`.) -/
def pyReplace (old nw s : List Char) : List Char :=
  pyReplaceGo old nw s.length s

/-- The worker's result only depends on the fuel through "is it enough",
so any two sufficient fuels agree. -/
theorem pyReplaceGo_congr (old nw : List Char) :
    ∀ f₁ f₂ s, s.length ≤ f₁ → s.length ≤ f₂ →
      pyReplaceGo old nw f₁ s = pyReplaceGo old nw f₂ s := by
  intro f₁
  induction f₁ with
  | zero =>
    intro f₂ s h₁ _
    have hs : s = [] := List.eq_nil_of_length_eq_zero (Nat.le_zero.mp h₁)
    subst hs
    cases f₂ <;> rfl
  | succ f ih =>
    intro f₂ s h₁ h₂
    cases s with
    | nil => cases f₂ <;> rfl
    | cons c rest =>
      cases f₂ with
      | zero => exact absurd h₂ (by simp)
      | succ f' =>
        simp only [pyReplaceGo]
        have hd : (rest.drop (old.length - 1)).length ≤ rest.length := by
          simp [List.length_drop]
        have hr₁ : rest.length ≤ f := by simpa using h₁
        have hr₂ : rest.length ≤ f' := by simpa using h₂
        split
        · exact congrArg (nw ++ ·)
            (ih f' _ (le_trans hd hr₁) (le_trans hd hr₂))
        · exact congrArg (c :: ·) (ih f' rest hr₁ hr₂)

@[simp] theorem pyReplace_nil (old nw : List Char) : pyReplace old nw [] = [] := rfl

/-- One-step unfolding of `pyReplace` on a nonempty string. -/
theorem pyReplace_cons (old nw : List Char) (c : Char) (rest : List Char) :
    pyReplace old nw (c :: rest) =
      if old.isPrefixOf (c :: rest) then
        nw ++ pyReplace old nw (rest.drop (old.length - 1))
      else
        c :: pyReplace old nw rest := by
  show pyReplaceGo old nw (rest.length + 1) (c :: rest) = _
  simp only [pyReplaceGo, pyReplace]
  have hd : (rest.drop (old.length - 1)).length ≤ rest.length := by
    simp [List.length_drop]
  split
  · exact congrArg (nw ++ ·) (pyReplaceGo_congr old nw _ _ _ hd le_rfl)
  · rfl

/-- `List.isPrefixOf` decides `<+:` (on `Char` lists). -/
theorem prefOf_iff {l₁ l₂ : List Char} : l₁.isPrefixOf l₂ = true ↔ l₁ <+: l₂ :=
  List.isPrefixOf_iff_prefix

/-- `List.isSuffixOf` decides `<:+` (on `Char` lists). -/
theorem sufOf_iff {l₁ l₂ : List Char} : l₁.isSuffixOf l₂ = true ↔ l₁ <:+ l₂ :=
  List.isSuffixOf_iff_suffix

theorem prefConsCons {a b : Char} {l₁ l₂ : List Char} :
    a :: l₁ <+: b :: l₂ ↔ a = b ∧ l₁ <+: l₂ := List.cons_prefix_cons

/-- Head-mismatch case of `pyReplace`: copy one character. -/
theorem pyReplace_head (old nw : List Char) {c : Char} {rest : List Char}
    (h : ¬ old <+: c :: rest) :
    pyReplace old nw (c :: rest) = c :: pyReplace old nw rest := by
  rw [pyReplace_cons, if_neg]
  simpa [prefOf_iff] using h

/-- Match case of `pyReplace`: emit the replacement and skip the match. -/
theorem pyReplace_match (old nw : List Char) (hne : old ≠ []) (t : List Char) :
    pyReplace old nw (old ++ t) = nw ++ pyReplace old nw t := by
  obtain ⟨o, os, rfl⟩ : ∃ o os, old = o :: os := by
    cases old with
    | nil => exact absurd rfl hne
    | cons o os => exact ⟨o, os, rfl⟩
  rw [List.cons_append, pyReplace_cons, if_pos]
  · have hdrop : (os ++ t).drop ((o :: os).length - 1) = t := by
      simp [@List.drop_left' Char os t os.length rfl]
    rw [hdrop]
  · exact prefOf_iff.mpr ⟨t, by simp⟩

/-- Match case of `pyReplace`, phrased on a cons cell with a `<+:`
hypothesis. -/
theorem pyReplace_cons_of_pre {old : List Char} (nw : List Char) {c : Char}
    {rest : List Char} (h : old <+: c :: rest) :
    pyReplace old nw (c :: rest) =
      nw ++ pyReplace old nw (rest.drop (old.length - 1)) := by
  rw [pyReplace_cons, if_pos (prefOf_iff.mpr h)]

/-- Taking an initial segment preserves the `<+:` relation. -/
theorem pre_take {l₁ l₂ : List Char} (h : l₁ <+: l₂) (k : Nat) :
    l₁.take k <+: l₂.take k := by
  obtain ⟨t, rfl⟩ := h
  exact ⟨t.take (k - l₁.length), by rw [List.take_append_eq_append_take]⟩

/-- `noStart p a` says no occurrence of `p` can begin inside `a`,
whatever list is appended after `a`: at every position of `a` the
corresponding initial slice of `p` already disagrees with `a`. -/
def noStart (p a : List Char) : Prop :=
  ∀ i < a.length, ¬ (p.take (a.length - i) <+: a.drop i)

instance (p a : List Char) : Decidable (noStart p a) :=
  inferInstanceAs (Decidable (∀ i < a.length, ¬ (p.take (a.length - i) <+: a.drop i)))

theorem noStart_cons {p : List Char} {c : Char} {a : List Char}
    (h : noStart p (c :: a)) : noStart p a := by
  intro i hi hcon
  have h' := h (i + 1) (by simpa using Nat.succ_lt_succ hi)
  apply h'
  have e₁ : (c :: a).drop (i + 1) = a.drop i := rfl
  have e₂ : (c :: a).length - (i + 1) = a.length - i := by simp
  rw [e₁, e₂]
  exact hcon

theorem noStart_not_pre {p : List Char} {c : Char} {a : List Char}
    (h : noStart p (c :: a)) (b : List Char) : ¬ p <+: (c :: a) ++ b := by
  intro hcon
  have h0 := h 0 (by simp)
  have h1 : p.take (c :: a).length <+: c :: a := by
    have := pre_take hcon (c :: a).length
    rwa [List.take_left] at this
  exact h0 (by simpa using h1)

/-- If no occurrence of `p` can begin inside `a`, the scan passes over
`a` unchanged and continues on the rest. -/
theorem pyReplace_skip (p nw : List Char) {a : List Char} (h : noStart p a)
    (b : List Char) : pyReplace p nw (a ++ b) = a ++ pyReplace p nw b := by
  induction a with
  | nil => simp
  | cons c a' ih =>
    have hnp : ¬ p <+: c :: (a' ++ b) := by
      intro hc
      exact noStart_not_pre h b (by rwa [List.cons_append])
    rw [List.cons_append, pyReplace_head p nw hnp, ih (noStart_cons h),
      List.cons_append]

/-- If the replacement string starts with `ch` and `q` avoids `ch`, then
a `q`-shaped beginning of the scan's output must already have begun the
input: the scan cannot manufacture one. -/
theorem pyReplace_pull (p nw : List Char) (ch : Char)
    (hnw : nw.head? = some ch) :
    ∀ n s q, s.length ≤ n → (∀ c ∈ q, c ≠ ch) →
      q <+: pyReplace p nw s → q <+: s := by
  intro n
  induction n with
  | zero =>
    intro s q hs _ hq
    have : s = [] := List.eq_nil_of_length_eq_zero (Nat.le_zero.mp hs)
    subst this
    simpa using hq
  | succ n ih =>
    intro s q hs hav hq
    cases s with
    | nil => simpa using hq
    | cons c rest =>
      by_cases hm : p <+: c :: rest
      · rw [pyReplace_cons_of_pre nw hm] at hq
        cases q with
        | nil => exact List.nil_prefix
        | cons qh qt =>
          cases nw with
          | nil => simp at hnw
          | cons nh nt =>
            have hnh : nh = ch := by simpa using hnw
            rw [List.cons_append, prefConsCons] at hq
            exact absurd (hq.1.trans hnh) (hav qh (by simp))
      · rw [pyReplace_head p nw hm] at hq
        cases q with
        | nil => exact List.nil_prefix
        | cons qh qt =>
          rw [prefConsCons] at hq
          have : qt <+: rest :=
            ih rest qt (by simpa using hs) (fun x hx => hav x (by simp [hx])) hq.2
          exact prefConsCons.mpr ⟨hq.1, this⟩

/-- Branch selection for `Bool`-conditioned `if`s. -/
theorem ite_of_false {α : Sort _} {b : Bool} (h : b = false) (x y : α) :
    (if b then x else y) = y := by subst h; simp

theorem ite_of_true {α : Sort _} {b : Bool} (h : b = true) (x y : α) :
    (if b then x else y) = x := by subst h; simp

/-- The four fixed colour replacements of `create_dark_panels.py`
(lines 4–9), in their dictionary insertion order. -/
def word_replacements : List (List Char × List Char) :=
  [("#909090".toList, "#252626".toList),
   ("#ab5b87".toList, "#79305a".toList),
   ("#ecedf1".toList, "#f7c5ad".toList),
   ("#fff".toList, "#f7c5ad".toList)]

/-- The replacement loop of lines 22–23: apply the four `str.replace`
steps in order, feeding each result into the next. -/
def apply_mapping (content : List Char) : List Char :=
  word_replacements.foldl (fun acc p => pyReplace p.1 p.2 acc) content

/-- The image suffix `".svg"`. -/
def svgSuffix : List Char := ".svg".toList

/-- The dark-variant suffix `"-dark.svg"`. -/
def darkSuffix : List Char := "-dark.svg".toList

/-- The eligibility test of line 16:
`filename.endswith(".svg") and not filename.endswith("-dark.svg")`. -/
def is_eligible (filename : List Char) : Bool :=
  svgSuffix.isSuffixOf filename && ! darkSuffix.isSuffixOf filename

/-- The output-name derivation of line 26:
`filename.replace(".svg", "-dark.svg")`. -/
def derive_dark_name (filename : List Char) : List Char :=
  pyReplace svgSuffix darkSuffix filename

/-- First source colour literal. -/
def p1 : List Char := "#909090".toList

/-- Replacement of the first colour literal. -/
def r1 : List Char := "#252626".toList

/-- Second source colour literal. -/
def p2 : List Char := "#ab5b87".toList

/-- Replacement of the second colour literal. -/
def r2 : List Char := "#79305a".toList

/-- Third source colour literal. -/
def p3 : List Char := "#ecedf1".toList

/-- Replacement of the third colour literal. -/
def r3 : List Char := "#f7c5ad".toList

/-- Fourth source colour literal. -/
def p4 : List Char := "#fff".toList

/-- Replacement of the fourth colour literal. -/
def r4 : List Char := "#f7c5ad".toList

/-- `apply_mapping` is the sequential composition of the four
`str.replace` steps, in the order the dictionary lists them. -/
theorem apply_mapping_eq (s : List Char) :
    apply_mapping s =
      pyReplace p4 r4 (pyReplace p3 r3 (pyReplace p2 r2 (pyReplace p1 r1 s))) :=
  rfl

/-- Modelled from the spec sentence "for literal content containing the
four source colour codes, the corresponding output contains the target
codes, with all other content byte-for-byte unchanged": a single
left-to-right pass in which each occurrence of one of the four source
literals is replaced by its target and every other byte is copied
unchanged (fuel-indexed worker; one step consumes at least one byte). -/
def specGo : Nat → List Char → List Char
  | 0, s => s
  | _ + 1, [] => []
  | fuel + 1, c :: rest =>
    if p1.isPrefixOf (c :: rest) then r1 ++ specGo fuel (rest.drop 6)
    else if p2.isPrefixOf (c :: rest) then r2 ++ specGo fuel (rest.drop 6)
    else if p3.isPrefixOf (c :: rest) then r3 ++ specGo fuel (rest.drop 6)
    else if p4.isPrefixOf (c :: rest) then r4 ++ specGo fuel (rest.drop 3)
    else c :: specGo fuel rest

/-- The spec-side simultaneous substitution pass. -/
def specTransform (s : List Char) : List Char := specGo s.length s

theorem specGo_congr :
    ∀ f₁ f₂ s, s.length ≤ f₁ → s.length ≤ f₂ → specGo f₁ s = specGo f₂ s := by
  intro f₁
  induction f₁ with
  | zero =>
    intro f₂ s h₁ _
    have hs : s = [] := List.eq_nil_of_length_eq_zero (Nat.le_zero.mp h₁)
    subst hs
    cases f₂ <;> rfl
  | succ f ih =>
    intro f₂ s h₁ h₂
    cases s with
    | nil => cases f₂ <;> rfl
    | cons c rest =>
      cases f₂ with
      | zero => exact absurd h₂ (by simp)
      | succ f' =>
        simp only [specGo]
        have hr₁ : rest.length ≤ f := by simpa using h₁
        have hr₂ : rest.length ≤ f' := by simpa using h₂
        have h6 : (rest.drop 6).length ≤ rest.length := by simp [List.length_drop]
        have h3 : (rest.drop 3).length ≤ rest.length := by simp [List.length_drop]
        split
        · exact congrArg (r1 ++ ·) (ih f' _ (le_trans h6 hr₁) (le_trans h6 hr₂))
        · split
          · exact congrArg (r2 ++ ·) (ih f' _ (le_trans h6 hr₁) (le_trans h6 hr₂))
          · split
            · exact congrArg (r3 ++ ·) (ih f' _ (le_trans h6 hr₁) (le_trans h6 hr₂))
            · split
              · exact congrArg (r4 ++ ·)
                  (ih f' _ (le_trans h3 hr₁) (le_trans h3 hr₂))
              · exact congrArg (c :: ·) (ih f' rest hr₁ hr₂)

@[simp] theorem specTransform_nil : specTransform [] = [] := rfl

/-- One-step unfolding of `specTransform` on a nonempty string. -/
theorem specTransform_cons (c : Char) (rest : List Char) :
    specTransform (c :: rest) =
      if p1.isPrefixOf (c :: rest) then r1 ++ specTransform (rest.drop 6)
      else if p2.isPrefixOf (c :: rest) then r2 ++ specTransform (rest.drop 6)
      else if p3.isPrefixOf (c :: rest) then r3 ++ specTransform (rest.drop 6)
      else if p4.isPrefixOf (c :: rest) then r4 ++ specTransform (rest.drop 3)
      else c :: specTransform rest := by
  show specGo (rest.length + 1) (c :: rest) = _
  simp only [specGo, specTransform]
  have h6 : (rest.drop 6).length ≤ rest.length := by simp [List.length_drop]
  have h3 : (rest.drop 3).length ≤ rest.length := by simp [List.length_drop]
  split
  · exact congrArg (r1 ++ ·) (specGo_congr _ _ _ h6 le_rfl)
  · split
    · exact congrArg (r2 ++ ·) (specGo_congr _ _ _ h6 le_rfl)
    · split
      · exact congrArg (r3 ++ ·) (specGo_congr _ _ _ h6 le_rfl)
      · split
        · exact congrArg (r4 ++ ·) (specGo_congr _ _ _ h3 le_rfl)
        · rfl

theorem prefOf_eq_false {l₁ l₂ : List Char} (h : ¬ l₁ <+: l₂) :
    l₁.isPrefixOf l₂ = false := by
  cases hb : l₁.isPrefixOf l₂
  · rfl
  · exact absurd (prefOf_iff.mp hb) h

theorem spec_match1 (t : List Char) :
    specTransform (p1 ++ t) = r1 ++ specTransform t := by
  have e : p1 ++ t = '#' :: ("909090".toList ++ t) := rfl
  have c0 : p1.isPrefixOf ('#' :: ("909090".toList ++ t)) = true :=
    prefOf_iff.mpr ⟨t, rfl⟩
  rw [e, specTransform_cons, ite_of_true c0,
    @List.drop_left' Char ("909090".toList) t 6 rfl]

theorem spec_match2 (t : List Char) :
    specTransform (p2 ++ t) = r2 ++ specTransform t := by
  have e : p2 ++ t = '#' :: ("ab5b87".toList ++ t) := rfl
  have c1 : p1.isPrefixOf ('#' :: ("ab5b87".toList ++ t)) = false := rfl
  have c0 : p2.isPrefixOf ('#' :: ("ab5b87".toList ++ t)) = true :=
    prefOf_iff.mpr ⟨t, rfl⟩
  rw [e, specTransform_cons, ite_of_false c1, ite_of_true c0,
    @List.drop_left' Char ("ab5b87".toList) t 6 rfl]

theorem spec_match3 (t : List Char) :
    specTransform (p3 ++ t) = r3 ++ specTransform t := by
  have e : p3 ++ t = '#' :: ("ecedf1".toList ++ t) := rfl
  have c1 : p1.isPrefixOf ('#' :: ("ecedf1".toList ++ t)) = false := rfl
  have c2 : p2.isPrefixOf ('#' :: ("ecedf1".toList ++ t)) = false := rfl
  have c0 : p3.isPrefixOf ('#' :: ("ecedf1".toList ++ t)) = true :=
    prefOf_iff.mpr ⟨t, rfl⟩
  rw [e, specTransform_cons, ite_of_false c1, ite_of_false c2, ite_of_true c0,
    @List.drop_left' Char ("ecedf1".toList) t 6 rfl]

theorem spec_match4 (t : List Char) :
    specTransform (p4 ++ t) = r4 ++ specTransform t := by
  have e : p4 ++ t = '#' :: ("fff".toList ++ t) := rfl
  have c1 : p1.isPrefixOf ('#' :: ("fff".toList ++ t)) = false := rfl
  have c2 : p2.isPrefixOf ('#' :: ("fff".toList ++ t)) = false := rfl
  have c3 : p3.isPrefixOf ('#' :: ("fff".toList ++ t)) = false := rfl
  have c0 : p4.isPrefixOf ('#' :: ("fff".toList ++ t)) = true :=
    prefOf_iff.mpr ⟨t, rfl⟩
  rw [e, specTransform_cons, ite_of_false c1, ite_of_false c2, ite_of_false c3,
    ite_of_true c0,
    @List.drop_left' Char ("fff".toList) t 3 rfl]

theorem spec_none {c : Char} {rest : List Char}
    (h1 : ¬ p1 <+: c :: rest) (h2 : ¬ p2 <+: c :: rest)
    (h3 : ¬ p3 <+: c :: rest) (h4 : ¬ p4 <+: c :: rest) :
    specTransform (c :: rest) = c :: specTransform rest := by
  rw [specTransform_cons, ite_of_false (prefOf_eq_false h1),
    ite_of_false (prefOf_eq_false h2), ite_of_false (prefOf_eq_false h3),
    ite_of_false (prefOf_eq_false h4)]

theorem apply_eq_spec_aux :
    ∀ n s, s.length ≤ n → apply_mapping s = specTransform s := by
  intro n
  induction n with
  | zero =>
    intro s hs
    have : s = [] := List.eq_nil_of_length_eq_zero (Nat.le_zero.mp hs)
    subst this
    rfl
  | succ n ih =>
    intro s hs
    cases s with
    | nil => rfl
    | cons c rest =>
      by_cases h1 : p1 <+: c :: rest
      · obtain ⟨t, ht⟩ := h1
        rw [← ht]
        have hlen : t.length ≤ n := by
          have h' := hs
          rw [← ht, List.length_append] at h'
          have e : p1.length = 7 := rfl
          omega
        rw [apply_mapping_eq, pyReplace_match p1 r1 (by decide) t,
          pyReplace_skip p2 r2 (show noStart p2 r1 by decide) _,
          pyReplace_skip p3 r3 (show noStart p3 r1 by decide) _,
          pyReplace_skip p4 r4 (show noStart p4 r1 by decide) _,
          ← apply_mapping_eq, spec_match1, ih t hlen]
      · by_cases h2 : p2 <+: c :: rest
        · obtain ⟨t, ht⟩ := h2
          rw [← ht]
          have hlen : t.length ≤ n := by
            have h' := hs
            rw [← ht, List.length_append] at h'
            have e : p2.length = 7 := rfl
            omega
          rw [apply_mapping_eq,
            pyReplace_skip p1 r1 (show noStart p1 p2 by decide) t,
            pyReplace_match p2 r2 (by decide) _,
            pyReplace_skip p3 r3 (show noStart p3 r2 by decide) _,
            pyReplace_skip p4 r4 (show noStart p4 r2 by decide) _,
            ← apply_mapping_eq, spec_match2, ih t hlen]
        · by_cases h3 : p3 <+: c :: rest
          · obtain ⟨t, ht⟩ := h3
            rw [← ht]
            have hlen : t.length ≤ n := by
              have h' := hs
              rw [← ht, List.length_append] at h'
              have e : p3.length = 7 := rfl
              omega
            rw [apply_mapping_eq,
              pyReplace_skip p1 r1 (show noStart p1 p3 by decide) t,
              pyReplace_skip p2 r2 (show noStart p2 p3 by decide) _,
              pyReplace_match p3 r3 (by decide) _,
              pyReplace_skip p4 r4 (show noStart p4 r3 by decide) _,
              ← apply_mapping_eq, spec_match3, ih t hlen]
          · by_cases h4 : p4 <+: c :: rest
            · obtain ⟨t, ht⟩ := h4
              rw [← ht]
              have hlen : t.length ≤ n := by
                have h' := hs
                rw [← ht, List.length_append] at h'
                have e : p4.length = 4 := rfl
                omega
              rw [apply_mapping_eq,
                pyReplace_skip p1 r1 (show noStart p1 p4 by decide) t,
                pyReplace_skip p2 r2 (show noStart p2 p4 by decide) _,
                pyReplace_skip p3 r3 (show noStart p3 p4 by decide) _,
                pyReplace_match p4 r4 (by decide) _,
                ← apply_mapping_eq, spec_match4, ih t hlen]
            · have hn2 : ¬ p2 <+: c :: pyReplace p1 r1 rest := by
                intro hcon
                have hcon' : '#' :: "ab5b87".toList <+: c :: pyReplace p1 r1 rest :=
                  hcon
                rw [prefConsCons] at hcon'
                have hpull : "ab5b87".toList <+: rest :=
                  pyReplace_pull p1 r1 '#' rfl rest.length rest _ le_rfl
                    (by decide) hcon'.2
                exact h2 (prefConsCons.mpr ⟨hcon'.1, hpull⟩)
              have hn3 : ¬ p3 <+: c :: pyReplace p2 r2 (pyReplace p1 r1 rest) := by
                intro hcon
                have hcon' : '#' :: "ecedf1".toList <+:
                    c :: pyReplace p2 r2 (pyReplace p1 r1 rest) := hcon
                rw [prefConsCons] at hcon'
                have s1 : "ecedf1".toList <+: pyReplace p1 r1 rest :=
                  pyReplace_pull p2 r2 '#' rfl _ _ _ le_rfl (by decide) hcon'.2
                have s2 : "ecedf1".toList <+: rest :=
                  pyReplace_pull p1 r1 '#' rfl rest.length rest _ le_rfl
                    (by decide) s1
                exact h3 (prefConsCons.mpr ⟨hcon'.1, s2⟩)
              have hn4 : ¬ p4 <+:
                  c :: pyReplace p3 r3 (pyReplace p2 r2 (pyReplace p1 r1 rest)) := by
                intro hcon
                have hcon' : '#' :: "fff".toList <+:
                    c :: pyReplace p3 r3 (pyReplace p2 r2 (pyReplace p1 r1 rest)) :=
                  hcon
                rw [prefConsCons] at hcon'
                have s1 : "fff".toList <+: pyReplace p2 r2 (pyReplace p1 r1 rest) :=
                  pyReplace_pull p3 r3 '#' rfl _ _ _ le_rfl (by decide) hcon'.2
                have s2 : "fff".toList <+: pyReplace p1 r1 rest :=
                  pyReplace_pull p2 r2 '#' rfl _ _ _ le_rfl (by decide) s1
                have s3 : "fff".toList <+: rest :=
                  pyReplace_pull p1 r1 '#' rfl rest.length rest _ le_rfl
                    (by decide) s2
                exact h4 (prefConsCons.mpr ⟨hcon'.1, s3⟩)
              rw [apply_mapping_eq, pyReplace_head p1 r1 h1,
                pyReplace_head p2 r2 hn2, pyReplace_head p3 r3 hn3,
                pyReplace_head p4 r4 hn4, ← apply_mapping_eq,
                spec_none h1 h2 h3 h4, ih rest (by simpa using hs)]

/-- The sequential four-step replacement coincides with the spec's
one-pass simultaneous substitution on every content. -/
theorem apply_mapping_eq_specTransform (s : List Char) :
    apply_mapping s = specTransform s :=
  apply_eq_spec_aux s.length s le_rfl

/-- C1: on every input content, the transformation acts as the one-pass
substitution that replaces each occurrence of `#909090`, `#ab5b87`,
`#ecedf1` and `#fff` by `#252626`, `#79305a`, `#f7c5ad` and `#f7c5ad`
respectively and copies every other byte unchanged; in particular the
content `<svg fill="#fff" stroke="#909090"/>` is transformed to
`<svg fill="#f7c5ad" stroke="#252626"/>`. -/
theorem claim_C1 :
    (∀ content : List Char, apply_mapping content = specTransform content) ∧
      apply_mapping ("<svg fill=\"#fff\" stroke=\"#909090\"/>".toList) =
        "<svg fill=\"#f7c5ad\" stroke=\"#252626\"/>".toList :=
  ⟨apply_mapping_eq_specTransform, by decide⟩

/-- C2: `apply_mapping` processes the replacement pairs sequentially in
their fixed listed order (`#909090`, then `#ab5b87`, then `#ecedf1`,
then `#fff`), each step replacing all non-overlapping occurrences by
plain literal substring matching (`pyReplace`) and feeding its result
into the next step. -/
theorem claim_C2 :
    word_replacements = [(p1, r1), (p2, r2), (p3, r3), (p4, r4)] ∧
      ∀ content : List Char,
        apply_mapping content =
          pyReplace p4 r4
            (pyReplace p3 r3 (pyReplace p2 r2 (pyReplace p1 r1 content))) :=
  ⟨rfl, apply_mapping_eq⟩

/-- The doubled dark suffix `"-dark-dark.svg"` that the spec promises
never appears at the end of an output name. -/
def ddSuffix : List Char := "-dark-dark.svg".toList

theorem sfx_iff_rev {l₁ l₂ : List Char} : l₁ <:+ l₂ ↔ l₁.reverse <+: l₂.reverse := by
  constructor
  · rintro ⟨t, rfl⟩
    exact ⟨t.reverse, by rw [← List.reverse_append]⟩
  · rintro ⟨t, ht⟩
    refine ⟨t.reverse, ?_⟩
    have h := congrArg List.reverse ht
    simpa using h

theorem pre_take_eq {p l : List Char} (h : p <+: l) : p = l.take p.length := by
  obtain ⟨t, rfl⟩ := h
  rw [List.take_left]

/-- A list with the initial segment of an append: it sits inside the left
part, or it swallows the left part whole. -/
theorem pre_split {p u v : List Char} (h : p <+: u ++ v) :
    p <+: u ∨ (u <+: p ∧ p.drop u.length <+: v) := by
  obtain ⟨t, ht⟩ := h
  by_cases hl : p.length ≤ u.length
  · left
    have h1 : p.take u.length <+: (u ++ v).take u.length := pre_take ⟨t, ht⟩ _
    rw [List.take_left, List.take_of_length_le hl] at h1
    exact h1
  · right
    constructor
    · have h2 := congrArg (List.take u.length) ht
      rw [List.take_left, List.take_append_eq_append_take] at h2
      have e0 : u.length - p.length = 0 := by omega
      rw [e0, List.take_zero, List.append_nil] at h2
      have h6 := List.take_append_drop u.length p
      rw [h2] at h6
      exact ⟨p.drop u.length, h6⟩
    · have h3 := congrArg (List.drop u.length) ht
      rw [List.drop_left, List.drop_append_eq_append_drop] at h3
      have e0 : u.length - p.length = 0 := by omega
      rw [e0, List.drop_zero] at h3
      exact ⟨t, h3⟩

/-- Mirror image of `pre_split` for suffixes. -/
theorem sfx_split {q x y : List Char} (h : q <:+ x ++ y) :
    q <:+ y ∨ ∃ q', q' ++ y = q ∧ q' <:+ x := by
  rw [sfx_iff_rev, List.reverse_append] at h
  rcases pre_split h with h1 | ⟨h2, h3⟩
  · exact Or.inl (sfx_iff_rev.mpr h1)
  · right
    obtain ⟨q', hq'⟩ := sfx_iff_rev.mpr h2
    refine ⟨q', hq', ?_⟩
    rw [sfx_iff_rev]
    have e : q.reverse.drop y.reverse.length = q'.reverse := by
      rw [← hq', List.reverse_append]
      exact List.drop_left _ _
    rwa [e] at h3

/-- If `p` cannot overlap itself and is a prefix of `a ++ p` with `a`
nonempty, then `p` already occurs at the front of `a`. -/
theorem pre_of_pre_append_self {p a : List Char}
    (hno : ∀ k, k < p.length → 0 < k → p.drop k ≠ p.take (p.length - k))
    (h : p <+: a ++ p) (ha : a ≠ []) : p <+: a := by
  rcases pre_split h with h1 | ⟨h2, h3⟩
  · exact h1
  · by_cases hap : a.length < p.length
    · exfalso
      have h4 := pre_take_eq h3
      rw [List.length_drop] at h4
      have ha' : 0 < a.length := List.length_pos.mpr ha
      exact hno a.length hap ha' h4
    · have h5 : a = p := h2.eq_of_length (by have := h2.length_le; omega)
      rw [h5]

/-- A list ending in `".svg"` keeps that ending after the leading
`".svg"` is peeled off, provided anything remains. -/
theorem ends_shift {z : List Char} (h : svgSuffix <:+ svgSuffix ++ z)
    (hz : z ≠ []) : svgSuffix <:+ z := by
  rw [sfx_iff_rev] at h ⊢
  rw [List.reverse_append] at h
  exact pre_of_pre_append_self (by decide) h (by simpa using hz)

theorem derive_ends_dark_aux :
    ∀ n f, f.length ≤ n → svgSuffix <:+ f →
      darkSuffix <:+ derive_dark_name f := by
  intro n
  induction n with
  | zero =>
    intro f hf hsuf
    exfalso
    have h1 := hsuf.length_le
    have e : svgSuffix.length = 4 := rfl
    omega
  | succ n ih =>
    intro f hf hsuf
    cases f with
    | nil =>
      exfalso
      obtain ⟨t, ht⟩ := hsuf
      rw [List.append_eq_nil] at ht
      exact absurd ht.2 (by decide)
    | cons c rest =>
      by_cases hm : svgSuffix <+: c :: rest
      · obtain ⟨z, hz⟩ := hm
        rw [← hz] at hsuf ⊢
        show darkSuffix <:+ pyReplace svgSuffix darkSuffix (svgSuffix ++ z)
        rw [pyReplace_match svgSuffix darkSuffix (by decide) z]
        cases z with
        | nil =>
          rw [pyReplace_nil, List.append_nil]
        | cons z0 zr =>
          have hz' : svgSuffix <:+ z0 :: zr := ends_shift hsuf (by simp)
          have hlen : (z0 :: zr).length ≤ n := by
            have l1 := congrArg List.length hz
            have e : svgSuffix.length = 4 := rfl
            simp only [List.length_append, List.length_cons] at l1 hf ⊢
            omega
          exact (ih _ hlen hz').trans (List.suffix_append _ _)
      · obtain ⟨t, ht⟩ := hsuf
        cases t with
        | nil =>
          exfalso
          apply hm
          have h0 : svgSuffix = c :: rest := by simpa using ht
          rw [← h0]
        | cons x t' =>
          have h' : x :: (t' ++ svgSuffix) = c :: rest := by simpa using ht
          injection h' with hx hrest
          have hrog : svgSuffix <:+ rest := ⟨t', hrest⟩
          show darkSuffix <:+ pyReplace svgSuffix darkSuffix (c :: rest)
          rw [pyReplace_head svgSuffix darkSuffix hm]
          have hd := ih rest (by simp only [List.length_cons] at hf; omega) hrog
          exact hd.trans (List.suffix_cons _ _)

/-- Every filename ending in `".svg"` gets a derived name ending in
`"-dark.svg"`. -/
theorem derive_ends_dark {f : List Char} (h : svgSuffix <:+ f) :
    darkSuffix <:+ derive_dark_name f :=
  derive_ends_dark_aux f.length f le_rfl h

theorem derive_ne_nil {c : Char} {rest : List Char} :
    pyReplace svgSuffix darkSuffix (c :: rest) ≠ [] := by
  by_cases hm : svgSuffix <+: c :: rest
  · rw [pyReplace_cons_of_pre darkSuffix hm]
    intro hcon
    rw [List.append_eq_nil] at hcon
    exact absurd hcon.1 (by decide)
  · rw [pyReplace_head _ _ hm]
    simp

/-- The scan's output never continues with `"dark.svg"` from its very
start: the dot would have had to start a match in the input, turning it
into `"-dark.svg"` instead. -/
theorem dark_block : ∀ (s X : List Char),
    "dark.svg".toList ++ X ≠ pyReplace svgSuffix darkSuffix s := by
  intro s X h
  have hq : ("dark.svg".toList) <+: pyReplace svgSuffix darkSuffix s := ⟨X, h⟩
  have hs : ("dark.svg".toList) <+: s :=
    pyReplace_pull svgSuffix darkSuffix '-' rfl s.length s _ le_rfl (by decide) hq
  obtain ⟨u, hu⟩ := hs
  rw [← hu] at h
  have e : "dark.svg".toList ++ u = "dark".toList ++ (svgSuffix ++ u) := rfl
  rw [e,
    pyReplace_skip svgSuffix darkSuffix
      (show noStart svgSuffix ("dark".toList) by decide) _,
    pyReplace_match svgSuffix darkSuffix (by decide) u] at h
  have h' : "dark".toList ++ (svgSuffix ++ X) =
      "dark".toList ++ (darkSuffix ++ pyReplace svgSuffix darkSuffix u) := h
  have h2 := List.append_cancel_left h'
  have h3 : '.' :: ("svg".toList ++ X) =
      '-' :: ("dark.svg".toList ++ pyReplace svgSuffix darkSuffix u) := h2
  injection h3 with h4 h5
  exact absurd h4 (by decide)

theorem derive_inj_aux : ∀ n a b, a.length ≤ n →
    pyReplace svgSuffix darkSuffix a = pyReplace svgSuffix darkSuffix b →
      a = b := by
  intro n
  induction n with
  | zero =>
    intro a b ha h
    have ha' : a = [] := List.eq_nil_of_length_eq_zero (Nat.le_zero.mp ha)
    subst ha'
    rw [pyReplace_nil] at h
    cases b with
    | nil => rfl
    | cons d rb => exact absurd h.symm derive_ne_nil
  | succ n ih =>
    intro a b ha h
    cases a with
    | nil =>
      rw [pyReplace_nil] at h
      cases b with
      | nil => rfl
      | cons d rb => exact absurd h.symm derive_ne_nil
    | cons c ra =>
      by_cases hma : svgSuffix <+: c :: ra
      · obtain ⟨t, htt⟩ := hma
        rw [← htt] at h ⊢
        rw [pyReplace_match svgSuffix darkSuffix (by decide) t] at h
        cases b with
        | nil =>
          rw [pyReplace_nil, List.append_eq_nil] at h
          exact absurd h.1 (by decide)
        | cons d rb =>
          by_cases hmb : svgSuffix <+: d :: rb
          · obtain ⟨u, huu⟩ := hmb
            rw [← huu] at h ⊢
            rw [pyReplace_match svgSuffix darkSuffix (by decide) u] at h
            have h2 := List.append_cancel_left h
            have hlen : t.length ≤ n := by
              have l1 := congrArg List.length htt
              have e : svgSuffix.length = 4 := rfl
              simp only [List.length_append, List.length_cons] at l1 ha
              omega
            rw [ih t u hlen h2]
          · rw [pyReplace_head svgSuffix darkSuffix hmb] at h
            have h' : '-' :: ("dark.svg".toList ++ pyReplace svgSuffix darkSuffix t) =
                d :: pyReplace svgSuffix darkSuffix rb := h
            injection h' with h1 h2
            exact absurd h2 (dark_block rb _)
      · cases b with
        | nil =>
          rw [pyReplace_nil] at h
          exact absurd h derive_ne_nil
        | cons d rb =>
          by_cases hmb : svgSuffix <+: d :: rb
          · obtain ⟨u, huu⟩ := hmb
            rw [← huu] at h ⊢
            rw [pyReplace_match svgSuffix darkSuffix (by decide) u,
              pyReplace_head svgSuffix darkSuffix hma] at h
            have h' : c :: pyReplace svgSuffix darkSuffix ra =
                '-' :: ("dark.svg".toList ++ pyReplace svgSuffix darkSuffix u) := h
            injection h' with h1 h2
            exact absurd h2.symm (dark_block ra _)
          · rw [pyReplace_head svgSuffix darkSuffix hma,
              pyReplace_head svgSuffix darkSuffix hmb] at h
            injection h with h1 h2
            rw [h1, ih ra rb (by simp only [List.length_cons] at ha; omega) h2]

/-- `derive_dark_name` is injective on all filenames. -/
theorem derive_dark_name_inj {a b : List Char}
    (h : derive_dark_name a = derive_dark_name b) : a = b :=
  derive_inj_aux a.length a b le_rfl h

theorem derive_ends_ddark_aux :
    ∀ n f, f.length ≤ n → svgSuffix <:+ f →
      ddSuffix <:+ derive_dark_name f → darkSuffix <:+ f := by
  intro n
  induction n with
  | zero =>
    intro f hf hs _
    exfalso
    have h1 := hs.length_le
    have e : svgSuffix.length = 4 := rfl
    omega
  | succ n ih =>
    intro f hf hs hd
    cases f with
    | nil =>
      exfalso
      obtain ⟨t, ht⟩ := hs
      rw [List.append_eq_nil] at ht
      exact absurd ht.2 (by decide)
    | cons c rest =>
      by_cases hm : svgSuffix <+: c :: rest
      · obtain ⟨z, hz⟩ := hm
        rw [← hz] at hs hd ⊢
        rw [show derive_dark_name (svgSuffix ++ z) =
            pyReplace svgSuffix darkSuffix (svgSuffix ++ z) from rfl,
          pyReplace_match svgSuffix darkSuffix (by decide) z] at hd
        cases z with
        | nil =>
          exfalso
          rw [pyReplace_nil, List.append_nil] at hd
          have h1 := hd.length_le
          have e1 : ddSuffix.length = 14 := rfl
          have e2 : darkSuffix.length = 9 := rfl
          omega
        | cons z0 zr =>
          have hzog : svgSuffix <:+ z0 :: zr := ends_shift hs (by simp)
          have hlen : (z0 :: zr).length ≤ n := by
            have l1 := congrArg List.length hz
            have e : svgSuffix.length = 4 := rfl
            simp only [List.length_append, List.length_cons] at l1 hf ⊢
            omega
          by_cases hzd : darkSuffix <:+ z0 :: zr
          · exact hzd.trans (List.suffix_append _ _)
          · exfalso
            rcases sfx_split hd with hcase | ⟨q', hq1, hq2⟩
            · exact hzd (ih _ hlen hzog hcase)
            · have hlen9 : darkSuffix.length ≤
                  (pyReplace svgSuffix darkSuffix (z0 :: zr)).length :=
                (derive_ends_dark hzog).length_le
              have hql : q'.length ≤ 5 := by
                have l2 := congrArg List.length hq1
                have e1 : ddSuffix.length = 14 := rfl
                have e2 : darkSuffix.length = 9 := rfl
                simp only [List.length_append] at l2
                omega
              rcases Nat.eq_zero_or_pos q'.length with hq0 | hqpos
              · have hq'nil : q' = [] := List.eq_nil_of_length_eq_zero hq0
                subst hq'nil
                simp only [List.nil_append] at hq1
                apply hzd
                apply ih _ hlen hzog
                rw [show derive_dark_name (z0 :: zr) =
                  pyReplace svgSuffix darkSuffix (z0 :: zr) from rfl, hq1]
              · have hqt := pre_take_eq (⟨_, hq1⟩ : q' <+: ddSuffix)
                have hfor : ∀ k, k ≤ 5 → 0 < k →
                    ¬ (ddSuffix.take k <:+ darkSuffix) := by decide
                refine hfor q'.length hql hqpos ?_
                rw [← hqt]
                exact hq2
      · obtain ⟨t, ht⟩ := hs
        cases t with
        | nil =>
          exfalso
          apply hm
          have h0 : svgSuffix = c :: rest := by simpa using ht
          rw [← h0]
        | cons x t' =>
          have h' : x :: (t' ++ svgSuffix) = c :: rest := by simpa using ht
          injection h' with hx hrest
          have hrog : svgSuffix <:+ rest := ⟨t', hrest⟩
          rw [show derive_dark_name (c :: rest) =
            pyReplace svgSuffix darkSuffix (c :: rest) from rfl,
            pyReplace_head svgSuffix darkSuffix hm] at hd
          have hd' : ddSuffix <:+ [c] ++ pyReplace svgSuffix darkSuffix rest := by
            simpa using hd
          rcases sfx_split hd' with hcase | ⟨q', hq1, hq2⟩
          · have hres := ih rest (by simp only [List.length_cons] at hf; omega)
              hrog hcase
            exact hres.trans (List.suffix_cons _ _)
          · cases q' with
            | nil =>
              simp only [List.nil_append] at hq1
              have hrestv : rest = "-dark.svg".toList := by
                apply derive_inj_aux rest.length rest _ le_rfl
                rw [hq1]
                decide
              rw [hrestv]
              exact List.suffix_cons _ _
            | cons q0 q'' =>
              obtain ⟨u, hu⟩ := hq2
              have hu' := congrArg List.length hu
              simp only [List.length_append, List.length_cons,
                List.length_nil] at hu'
              have hu0 : u = [] := List.eq_nil_of_length_eq_zero (by omega)
              have hq''0 : q'' = [] := List.eq_nil_of_length_eq_zero (by omega)
              subst hu0
              subst hq''0
              have hq0c : q0 = c := by
                simp only [List.nil_append] at hu
                injection hu
              have h9 : q0 :: pyReplace svgSuffix darkSuffix rest = ddSuffix := by
                simpa using hq1
              have hddc : ddSuffix = '-' :: "dark-dark.svg".toList := rfl
              rw [hddc] at h9
              injection h9 with hc hrest2
              have hrestv : rest = "dark.svg".toList := by
                apply derive_inj_aux rest.length rest _ le_rfl
                rw [hrest2]
                decide
              rw [← hq0c, hc, hrestv]
              exact List.suffix_rfl

/-- A derived name ends in `"-dark-dark.svg"` only when the input name
already ended in `"-dark.svg"`. -/
theorem derive_ends_ddark {f : List Char} (hog : svgSuffix <:+ f)
    (hdd : ddSuffix <:+ derive_dark_name f) : darkSuffix <:+ f :=
  derive_ends_ddark_aux f.length f le_rfl hog hdd

theorem is_eligible_iff {f : List Char} :
    is_eligible f = true ↔ (svgSuffix <:+ f ∧ ¬ darkSuffix <:+ f) := by
  constructor
  · intro h
    rw [is_eligible, Bool.and_eq_true] at h
    have h2 := h.2
    rw [Bool.not_eq_true'] at h2
    refine ⟨sufOf_iff.mp h.1, fun hc => ?_⟩
    rw [sufOf_iff.mpr hc] at h2
    exact Bool.noConfusion h2
  · rintro ⟨h1, h2⟩
    rw [is_eligible, Bool.and_eq_true, Bool.not_eq_true']
    refine ⟨sufOf_iff.mpr h1, ?_⟩
    cases hb : darkSuffix.isSuffixOf f
    · rfl
    · exact absurd (sufOf_iff.mp hb) h2

/-- The derived name of an eligible file is never itself eligible: it
ends in `"-dark.svg"`. -/
theorem derive_not_eligible {f : List Char} (h : is_eligible f = true) :
    is_eligible (derive_dark_name f) = false := by
  have hog : svgSuffix <:+ f := (is_eligible_iff.mp h).1
  have hdark : darkSuffix <:+ derive_dark_name f := derive_ends_dark hog
  cases hb : is_eligible (derive_dark_name f)
  · rfl
  · exact absurd hdark (is_eligible_iff.mp hb).2

/-- A directory entry: a filename together with its content. -/
structure DirFile where
  name : List Char
  content : List Char
deriving DecidableEq

/-- The read/transform step for one eligible file (lines 18–28):
its derived name paired with its transformed content. -/
def processOne (f : DirFile) : DirFile :=
  ⟨derive_dark_name f.name, apply_mapping f.content⟩

/-- The files the loop of lines 15–16 selects for reading, in listing
order. -/
def runReads (dir : List DirFile) : List DirFile :=
  dir.filter (fun f => is_eligible f.name)

/-- The writes the loop performs: one per eligible input. -/
def runWrites (dir : List DirFile) : List DirFile :=
  (runReads dir).map processOne

/-- Association-list lookup of a file's content by name. -/
def lookupD : List DirFile → List Char → Option (List Char)
  | [], _ => none
  | f :: fs, n => if f.name = n then some f.content else lookupD fs n

/-- Writing a file: overwrite the entry with that name, or create it. -/
def writeFile : List DirFile → List Char → List Char → List DirFile
  | [], n, c => [⟨n, c⟩]
  | f :: fs, n, c => if f.name = n then ⟨n, c⟩ :: fs else f :: writeFile fs n c

def applyWrites (dir : List DirFile) (ws : List DirFile) : List DirFile :=
  ws.foldl (fun d w => writeFile d w.name w.content) dir

/-- One full run of the script over a directory: every eligible file is
read, transformed, and written under its derived name, overwriting any
existing file of that name. -/
def run (dir : List DirFile) : List DirFile :=
  applyWrites dir (runWrites dir)

theorem lookupD_writeFile_self (d : List DirFile) (n c : List Char) :
    lookupD (writeFile d n c) n = some c := by
  induction d with
  | nil => simp [writeFile, lookupD]
  | cons f fs ih =>
    by_cases hf : f.name = n
    · simp [writeFile, hf, lookupD]
    · simp [writeFile, hf, lookupD, ih]

theorem lookupD_writeFile_ne (d : List DirFile) {n m : List Char}
    (c : List Char) (h : m ≠ n) :
    lookupD (writeFile d n c) m = lookupD d m := by
  have hnm : ¬ (n = m) := fun hc => h hc.symm
  induction d with
  | nil => simp only [writeFile, lookupD, if_neg hnm]
  | cons f fs ih =>
    by_cases hf : f.name = n
    · simp only [writeFile, if_pos hf, lookupD]
      rw [if_neg hnm, if_neg (show ¬ f.name = m from by rw [hf]; exact hnm)]
    · simp only [writeFile, if_neg hf, lookupD, ih]

theorem applyWrites_nil (d : List DirFile) : applyWrites d [] = d := rfl

theorem applyWrites_cons (d : List DirFile) (w : DirFile) (ws : List DirFile) :
    applyWrites d (w :: ws) =
      applyWrites (writeFile d w.name w.content) ws := rfl

theorem lookupD_applyWrites_not_mem :
    ∀ (ws : List DirFile) (d : List DirFile) (n : List Char),
      n ∉ ws.map DirFile.name →
        lookupD (applyWrites d ws) n = lookupD d n := by
  intro ws
  induction ws with
  | nil => intro d n _; rfl
  | cons w ws' ih =>
    intro d n hn
    rw [applyWrites_cons, ih _ n (fun hc => hn (by simp [hc]))]
    exact lookupD_writeFile_ne d w.content (fun hc => hn (by simp [hc]))

theorem lookupD_applyWrites_mem :
    ∀ (ws : List DirFile) (d : List DirFile) (w : DirFile),
      (ws.map DirFile.name).Nodup → w ∈ ws →
        lookupD (applyWrites d ws) w.name = some w.content := by
  intro ws
  induction ws with
  | nil => intro d w _ hw; exact absurd hw (by simp)
  | cons w0 ws' ih =>
    intro d w hnd hw
    rw [List.map_cons, List.nodup_cons] at hnd
    rcases List.mem_cons.mp hw with hw0 | hwtail
    · subst hw0
      rw [applyWrites_cons,
        lookupD_applyWrites_not_mem ws' _ w.name hnd.1]
      exact lookupD_writeFile_self d w.name w.content
    · rw [applyWrites_cons]
      exact ih _ w hnd.2 hwtail

theorem runWrites_names (dir : List DirFile) :
    (runWrites dir).map DirFile.name =
      (runReads dir).map (fun f => derive_dark_name f.name) := by
  rw [runWrites, List.map_map]
  rfl

theorem nodup_runWrites {dir : List DirFile}
    (h : (dir.map DirFile.name).Nodup) :
    ((runWrites dir).map DirFile.name).Nodup := by
  rw [runWrites_names]
  have h1 : ((runReads dir).map DirFile.name).Nodup :=
    h.sublist ((List.filter_sublist dir).map DirFile.name)
  have h2 := h1.map (f := derive_dark_name)
    (fun a b hab => derive_dark_name_inj hab)
  rwa [List.map_map] at h2

theorem mem_runWrites {dir : List DirFile} {f : DirFile} (hf : f ∈ dir)
    (he : is_eligible f.name = true) : processOne f ∈ runWrites dir := by
  rw [runWrites]
  exact List.mem_map_of_mem _ (List.mem_filter.mpr ⟨hf, he⟩)

/-- After a run, the derived name of every eligible input holds exactly
the freshly transformed content of that input. -/
theorem run_lookup {dir : List DirFile} {f : DirFile}
    (hnd : (dir.map DirFile.name).Nodup) (hf : f ∈ dir)
    (he : is_eligible f.name = true) :
    lookupD (run dir) (derive_dark_name f.name) = some (apply_mapping f.content) :=
  lookupD_applyWrites_mem (runWrites dir) dir (processOne f)
    (nodup_runWrites hnd) (mem_runWrites hf he)

/-- Eligible names are never write targets, so their contents survive a
run unchanged. -/
theorem run_lookup_eligible {dir : List DirFile} {n : List Char}
    (he : is_eligible n = true) : lookupD (run dir) n = lookupD dir n := by
  apply lookupD_applyWrites_not_mem
  intro hc
  rw [runWrites_names] at hc
  obtain ⟨g, hg, hgn⟩ := List.mem_map.mp hc
  have hge : is_eligible g.name = true := (List.mem_filter.mp hg).2
  have := derive_not_eligible hge
  rw [hgn, he] at this
  exact Bool.noConfusion this

/-- Writing to an ineligible name does not disturb the set of eligible
entries. -/
theorem filter_writeFile {n : List Char} (hn : is_eligible n = false)
    (d : List DirFile) (c : List Char) :
    (writeFile d n c).filter (fun f => is_eligible f.name) =
      d.filter (fun f => is_eligible f.name) := by
  induction d with
  | nil =>
    show List.filter (fun f => is_eligible f.name) [(⟨n, c⟩ : DirFile)] =
      List.filter (fun f => is_eligible f.name) []
    rw [List.filter_cons_of_neg (by simpa using hn)]
  | cons f fs ih =>
    by_cases hf : f.name = n
    · simp only [writeFile, if_pos hf]
      rw [List.filter_cons_of_neg (by simpa using hn),
        List.filter_cons_of_neg (by simp [hf, hn])]
    · simp only [writeFile, if_neg hf]
      rw [List.filter_cons, List.filter_cons, ih]

theorem filter_applyWrites :
    ∀ (ws : List DirFile) (d : List DirFile),
      (∀ w ∈ ws, is_eligible w.name = false) →
        (applyWrites d ws).filter (fun f => is_eligible f.name) =
          d.filter (fun f => is_eligible f.name) := by
  intro ws
  induction ws with
  | nil => intro d _; rfl
  | cons w ws' ih =>
    intro d hws
    rw [applyWrites_cons, ih _ (fun v hv => hws v (by simp [hv])),
      filter_writeFile (hws w (by simp)) d w.content]

/-- Every write target of a run is ineligible. -/
theorem runWrites_not_eligible {dir : List DirFile} {w : DirFile}
    (hw : w ∈ runWrites dir) : is_eligible w.name = false := by
  rw [runWrites, List.mem_map] at hw
  obtain ⟨g, hg, hgw⟩ := hw
  have hge : is_eligible g.name = true := (List.mem_filter.mp hg).2
  rw [← hgw]
  exact derive_not_eligible hge

/-- A run leaves the set of eligible entries untouched, so a second run
selects exactly the same inputs. -/
theorem runReads_run (dir : List DirFile) : runReads (run dir) = runReads dir :=
  filter_applyWrites (runWrites dir) dir (fun _ hw => runWrites_not_eligible hw)

theorem runWrites_run (dir : List DirFile) :
    runWrites (run dir) = runWrites dir := by
  rw [runWrites, runReads_run, runWrites]

/-- Overwriting a file with the content it already has is a no-op. -/
theorem writeFile_same :
    ∀ (d : List DirFile) {n c : List Char}, lookupD d n = some c →
      writeFile d n c = d := by
  intro d
  induction d with
  | nil => intro n c h; exact absurd h (by simp [lookupD])
  | cons f fs ih =>
    intro n c h
    by_cases hf : f.name = n
    · rw [lookupD, if_pos hf] at h
      have hc : c = f.content := by
        injection h with h'
        exact h'.symm
      rw [writeFile, if_pos hf, ← hf, hc]
    · rw [lookupD, if_neg hf] at h
      rw [writeFile, if_neg hf, ih h]

theorem applyWrites_same :
    ∀ (ws : List DirFile) (d : List DirFile),
      (∀ w ∈ ws, lookupD d w.name = some w.content) →
        applyWrites d ws = d := by
  intro ws
  induction ws with
  | nil => intro d _; rfl
  | cons w ws' ih =>
    intro d h
    rw [applyWrites_cons, writeFile_same d (h w (by simp))]
    exact ih d (fun v hv => h v (by simp [hv]))

/-- Running the script twice leaves the directory exactly as after the
first run. -/
theorem run_run {dir : List DirFile} (hnd : (dir.map DirFile.name).Nodup) :
    run (run dir) = run dir := by
  rw [show run (run dir) = applyWrites (run dir) (runWrites (run dir)) from rfl,
    runWrites_run]
  apply applyWrites_same
  intro w hw
  exact lookupD_applyWrites_mem (runWrites dir) dir w (nodup_runWrites hnd) hw

theorem lookupD_writeFile_isSome (d : List DirFile) (n c m : List Char)
    (h : (lookupD d m).isSome) : (lookupD (writeFile d n c) m).isSome := by
  by_cases hm : m = n
  · subst hm
    rw [lookupD_writeFile_self]
    rfl
  · rw [lookupD_writeFile_ne d c hm]
    exact h

/-- No run ever removes a file: every name present before is present
after. -/
theorem lookupD_applyWrites_isSome :
    ∀ (ws : List DirFile) (d : List DirFile) (m : List Char),
      (lookupD d m).isSome → (lookupD (applyWrites d ws) m).isSome := by
  intro ws
  induction ws with
  | nil => intro d m h; exact h
  | cons w ws' ih =>
    intro d m h
    rw [applyWrites_cons]
    exact ih _ m (lookupD_writeFile_isSome d w.name w.content m h)

/-- C3: a directory entry is selected as input iff its name ends in
`".svg"` and does not end in `"-dark.svg"`; consequently entries whose
names end in `"-dark.svg"` are never read as input, and no write target
of any run has a name ending in `"-dark-dark.svg"`. -/
theorem claim_C3 :
    (∀ (dir : List DirFile) (f : DirFile),
        f ∈ runReads dir ↔
          f ∈ dir ∧ svgSuffix <:+ f.name ∧ ¬ darkSuffix <:+ f.name) ∧
      (∀ (dir : List DirFile) (f : DirFile), darkSuffix <:+ f.name →
        f ∉ runReads dir) ∧
      ∀ (dir : List DirFile) (w : DirFile), w ∈ runWrites dir →
        ¬ ddSuffix <:+ w.name := by
  refine ⟨?_, ?_, ?_⟩
  · intro dir f
    rw [runReads, List.mem_filter, is_eligible_iff]
  · intro dir f hdark hmem
    rw [runReads, List.mem_filter] at hmem
    exact (is_eligible_iff.mp hmem.2).2 hdark
  · intro dir w hw hdd
    rw [runWrites, List.mem_map] at hw
    obtain ⟨g, hg, hgw⟩ := hw
    have hge : is_eligible g.name = true := (List.mem_filter.mp hg).2
    have hog : svgSuffix <:+ g.name := (is_eligible_iff.mp hge).1
    apply (is_eligible_iff.mp hge).2
    apply derive_ends_ddark hog
    rw [← hgw] at hdd
    exact hdd

theorem claim_C3_witness :
    ((⟨"x-dark.svg".toList, []⟩ : DirFile) ∉
        runReads [⟨"x-dark.svg".toList, []⟩]) ∧
      ¬ ddSuffix <:+ (⟨"x-dark.svg".toList, []⟩ : DirFile).name :=
  ⟨claim_C3.2.1 [⟨"x-dark.svg".toList, []⟩] ⟨"x-dark.svg".toList, []⟩ (by decide),
    claim_C3.2.2 [⟨"x.svg".toList, []⟩] ⟨"x-dark.svg".toList, []⟩ (by decide)⟩

/-- C5: after a run on a directory with distinct names, the derived name
of every eligible input file exists and holds exactly the freshly
computed transform of that input's content (overwriting whatever was
there before). -/
theorem claim_C5 (dir : List DirFile) (f : DirFile)
    (hnd : (dir.map DirFile.name).Nodup) (hf : f ∈ dir)
    (he : is_eligible f.name = true) :
    lookupD (run dir) (derive_dark_name f.name) =
      some (apply_mapping f.content) :=
  run_lookup hnd hf he

theorem claim_C5_witness :
    lookupD
        (run [⟨"button.svg".toList, "#fff".toList⟩,
              ⟨"button-dark.svg".toList, "stale".toList⟩])
        (derive_dark_name ("button.svg".toList)) =
      some (apply_mapping ("#fff".toList)) :=
  claim_C5 [⟨"button.svg".toList, "#fff".toList⟩,
            ⟨"button-dark.svg".toList, "stale".toList⟩]
    ⟨"button.svg".toList, "#fff".toList⟩ (by decide) (by decide) (by decide)

/-- C7: running the script twice over the same directory is idempotent —
the directory state after the second run is identical to the state after
the first (dark variants are re-derived from the unchanged eligible
inputs and overwritten with identical bytes). -/
theorem claim_C7 (dir : List DirFile) (hnd : (dir.map DirFile.name).Nodup) :
    run (run dir) = run dir :=
  run_run hnd

theorem claim_C7_witness :
    run (run [⟨"icon.svg".toList, "#fff".toList⟩]) =
      run [⟨"icon.svg".toList, "#fff".toList⟩] :=
  claim_C7 [⟨"icon.svg".toList, "#fff".toList⟩] (by decide)

/-- C8: `derive_dark_name` is injective on eligible filenames, and no
derived output name coincides with any eligible input name. -/
theorem claim_C8 :
    (∀ a b : List Char, is_eligible a = true → is_eligible b = true →
        a ≠ b → derive_dark_name a ≠ derive_dark_name b) ∧
      ∀ a b : List Char, is_eligible a = true → is_eligible b = true →
        derive_dark_name a ≠ b := by
  constructor
  · intro a b _ _ hne hc
    exact hne (derive_dark_name_inj hc)
  · intro a b ha hb hc
    have hog : svgSuffix <:+ a := (is_eligible_iff.mp ha).1
    have hdark := derive_ends_dark hog
    rw [hc] at hdark
    exact (is_eligible_iff.mp hb).2 hdark

theorem claim_C8_witness :
    derive_dark_name ("a.svg".toList) ≠ derive_dark_name ("b.svg".toList) ∧
      derive_dark_name ("a.svg".toList) ≠ "b.svg".toList :=
  ⟨claim_C8.1 ("a.svg".toList) ("b.svg".toList) (by decide) (by decide)
      (by decide),
    claim_C8.2 ("a.svg".toList) ("b.svg".toList) (by decide) (by decide)⟩

/-- C9: a run reads exactly the eligible entries (ineligible entries are
never read and never cause a write), performs one write per eligible
input, deletes nothing, and on a directory containing only `logo.png` it
performs zero writes and leaves the directory unchanged. -/
theorem claim_C9 :
    (∀ dir : List DirFile,
        runReads dir = dir.filter (fun f => is_eligible f.name)) ∧
      (∀ (dir : List DirFile) (f : DirFile), f ∈ runReads dir →
        is_eligible f.name = true) ∧
      (∀ dir : List DirFile, (runWrites dir).length = (runReads dir).length) ∧
      (∀ (dir : List DirFile) (m : List Char), (lookupD dir m).isSome →
        (lookupD (run dir) m).isSome) ∧
      ∀ content : List Char,
        runWrites [⟨"logo.png".toList, content⟩] = [] ∧
          run [⟨"logo.png".toList, content⟩] = [⟨"logo.png".toList, content⟩] := by
  refine ⟨fun _ => rfl, ?_, ?_, ?_, ?_⟩
  · intro dir f hf
    exact (List.mem_filter.mp hf).2
  · intro dir
    exact List.length_map _ _
  · intro dir m h
    exact lookupD_applyWrites_isSome (runWrites dir) dir m h
  · intro content
    exact ⟨rfl, rfl⟩

theorem claim_C9_witness :
    is_eligible (⟨"a.svg".toList, ([] : List Char)⟩ : DirFile).name = true ∧
      (lookupD (run [⟨"a.svg".toList, []⟩]) ("a.svg".toList)).isSome :=
  ⟨claim_C9.2.1 [⟨"a.svg".toList, []⟩] ⟨"a.svg".toList, []⟩ (by decide),
    claim_C9.2.2.2.1 [⟨"a.svg".toList, []⟩] ("a.svg".toList) (by decide)⟩

/-- When `".svg"` occurs nowhere inside the stem, the replacement only
fires on the trailing suffix. -/
theorem pyReplace_stem : ∀ stem : List Char, ¬ (svgSuffix <:+: stem) →
    pyReplace svgSuffix darkSuffix (stem ++ svgSuffix) = stem ++ darkSuffix := by
  intro stem
  induction stem with
  | nil =>
    intro _
    simp only [List.nil_append]
    decide
  | cons c st ih =>
    intro hinf
    have hst : ¬ (svgSuffix <:+: st) := by
      intro hc
      obtain ⟨u, v, huv⟩ := hc
      refine hinf ⟨c :: u, v, ?_⟩
      rw [← huv]
      simp
    have hnp : ¬ svgSuffix <+: (c :: st) ++ svgSuffix := by
      intro hc
      have hpre : svgSuffix <+: c :: st :=
        pre_of_pre_append_self (by decide) hc (by simp)
      exact hinf hpre.isInfix
    have hnp' : ¬ svgSuffix <+: c :: (st ++ svgSuffix) := by
      rw [← List.cons_append]
      exact hnp
    rw [List.cons_append, pyReplace_head svgSuffix darkSuffix hnp', ih hst,
      List.cons_append]

/-- C4 counterexample: `a.svgb.svg` is an eligible input filename, and
the script replaces its non-terminal `.svg` occurrence as well, giving
`a-dark.svgb-dark.svg` rather than the `a.svgb-dark.svg` that
replace-only-the-trailing-suffix semantics would produce. -/
theorem claim_C4_counterexample :
    is_eligible ("a.svgb.svg".toList) = true ∧
      derive_dark_name ("a.svgb.svg".toList) = "a-dark.svgb-dark.svg".toList ∧
      derive_dark_name ("a.svgb.svg".toList) ≠ "a.svgb-dark.svg".toList := by
  decide

/-- C4 (amended): `derive_dark_name` replaces every occurrence of
`".svg"` by `"-dark.svg"` — Python `str.replace` replaces all
occurrences, not only the trailing one; in particular, when `.svg`
occurs only as the trailing suffix, `name.svg` becomes `name-dark.svg`. -/
theorem claim_C4 :
    (∀ f : List Char, derive_dark_name f = pyReplace svgSuffix darkSuffix f) ∧
      ∀ stem : List Char, ¬ (svgSuffix <:+: stem) →
        derive_dark_name (stem ++ svgSuffix) = stem ++ darkSuffix :=
  ⟨fun _ => rfl, pyReplace_stem⟩

theorem claim_C4_witness :
    derive_dark_name ("icon".toList ++ svgSuffix) = "icon".toList ++ darkSuffix :=
  claim_C4.2 ("icon".toList) (by decide)

/-- Error outcomes of a run: the directory listing failing, or a single
file read/write failing (carrying the offending path). -/
inductive RunErr where
  | dirAccess : RunErr
  | fileIO : List Char → RunErr
deriving DecidableEq

/-- A directory entry as seen by the fallible run: its name, its
content, and whether reading it succeeds. -/
structure FSEntry where
  name : List Char
  content : List Char
  readOk : Bool
deriving DecidableEq

/-- The loop of lines 15–28 with Python's unhandled-exception semantics
made explicit: each eligible entry is opened and read (an unreadable
file raises), transformed, and written to its derived name (an
unwritable target raises); the first failure aborts the remaining
entries and the state reached so far is returned with the error. -/
def loopF (writeOk : List Char → Bool) :
    List DirFile → List FSEntry → List DirFile × Option RunErr
  | d, [] => (d, none)
  | d, e :: rest =>
    if is_eligible e.name then
      if e.readOk then
        if writeOk (derive_dark_name e.name) then
          loopF writeOk
            (writeFile d (derive_dark_name e.name) (apply_mapping e.content))
            rest
        else (d, some (RunErr.fileIO (derive_dark_name e.name)))
      else (d, some (RunErr.fileIO e.name))
    else loopF writeOk d rest

/-- The whole run: `os.listdir(res_directory)` on line 15 raises before
any file is touched when the directory is inaccessible. -/
def runF (dirOk : Bool) (writeOk : List Char → Bool) (entries : List FSEntry)
    (d : List DirFile) : List DirFile × Option RunErr :=
  if dirOk then loopF writeOk d entries else (d, some RunErr.dirAccess)

/-- Process exit status: zero only when no error escaped. -/
def exitCode : Option RunErr → Nat
  | none => 0
  | some _ => 1

/-- A failing file determines the run's outcome: whatever follows it in
the listing is never processed. -/
theorem loopF_fail_stops (writeOk : List Char → Bool) :
    ∀ (pre : List FSEntry) (d : List DirFile) (e : FSEntry)
      (rest rest' : List FSEntry), is_eligible e.name = true →
      (e.readOk = false ∨ writeOk (derive_dark_name e.name) = false) →
      loopF writeOk d (pre ++ e :: rest) = loopF writeOk d (pre ++ e :: rest') := by
  intro pre
  induction pre with
  | nil =>
    intro d e rest rest' he hfail
    simp only [List.nil_append, loopF, he, if_true]
    rcases hfail with hr | hw
    · rw [hr]
      simp
    · cases hrd : e.readOk
      · simp
      · simp [hw]
  | cons p pre' ih =>
    intro d e rest rest' he hfail
    simp only [List.cons_append, loopF]
    split
    · split
      · split
        · exact ih _ e rest rest' he hfail
        · rfl
      · rfl
    · exact ih _ e rest rest' he hfail

/-- C6: an inaccessible directory fails the run before any file is
processed; an eligible file that cannot be read, or whose output cannot
be written, fails the run at that point with the offending path and the
remaining entries are not processed; every such failure surfaces as a
non-zero exit status. -/
theorem claim_C6 :
    (∀ (writeOk : List Char → Bool) (entries : List FSEntry)
        (d : List DirFile),
        runF false writeOk entries d = (d, some RunErr.dirAccess)) ∧
      (∀ (writeOk : List Char → Bool) (d : List DirFile) (e : FSEntry)
        (rest : List FSEntry), is_eligible e.name = true → e.readOk = false →
        loopF writeOk d (e :: rest) = (d, some (RunErr.fileIO e.name))) ∧
      (∀ (writeOk : List Char → Bool) (d : List DirFile) (e : FSEntry)
        (rest : List FSEntry), is_eligible e.name = true → e.readOk = true →
        writeOk (derive_dark_name e.name) = false →
        loopF writeOk d (e :: rest) =
          (d, some (RunErr.fileIO (derive_dark_name e.name)))) ∧
      (∀ (writeOk : List Char → Bool) (pre : List FSEntry) (d : List DirFile)
        (e : FSEntry) (rest rest' : List FSEntry),
        is_eligible e.name = true →
        (e.readOk = false ∨ writeOk (derive_dark_name e.name) = false) →
        loopF writeOk d (pre ++ e :: rest) =
          loopF writeOk d (pre ++ e :: rest')) ∧
      ∀ err : RunErr, exitCode (some err) ≠ 0 := by
  refine ⟨?_, ?_, ?_, ?_, ?_⟩
  · intro writeOk entries d
    rfl
  · intro writeOk d e rest he hr
    simp [loopF, he, hr]
  · intro writeOk d e rest he hr hw
    simp [loopF, he, hr, hw]
  · exact fun writeOk pre => loopF_fail_stops writeOk pre
  · intro err
    simp [exitCode]

theorem claim_C6_witness :
    (runF false (fun _ => true) [] [] = ([], some RunErr.dirAccess)) ∧
      loopF (fun _ => true) []
          [⟨"icon.svg".toList, "#fff".toList, false⟩] =
        ([], some (RunErr.fileIO ("icon.svg".toList))) :=
  ⟨claim_C6.1 (fun _ => true) [] [],
    claim_C6.2.1 (fun _ => true) [] ⟨"icon.svg".toList, "#fff".toList, false⟩ []
      (by decide) rfl⟩

theorem inf_extend {x l₁ l₂ : List Char} (h : l₁ <:+: l₂) : l₁ <:+: x ++ l₂ := by
  obtain ⟨u, v, huv⟩ := h
  exact ⟨x ++ u, v, by rw [← huv]; simp [List.append_assoc]⟩

theorem inf_cons {c : Char} {l₁ l₂ : List Char} (h : l₁ <:+: l₂) :
    l₁ <:+: c :: l₂ := by
  obtain ⟨u, v, huv⟩ := h
  exact ⟨c :: u, v, by rw [← huv]; simp⟩

theorem not_pre_head {p : List Char} {c : Char} {rest : List Char}
    (hp : p.head? = some '#') (hc : c ≠ '#') : ¬ p <+: c :: rest := by
  intro hcon
  cases p with
  | nil => simp at hp
  | cons p0 ptl =>
    have hp0 : p0 = '#' := by simpa using hp
    rw [prefConsCons] at hcon
    exact hc (hcon.1.symm.trans hp0)

/-- The one-pass substitution copies any byte other than `#` verbatim. -/
theorem spec_cons_plain {c : Char} {rest : List Char} (hc : c ≠ '#') :
    specTransform (c :: rest) = c :: specTransform rest := by
  apply spec_none <;> exact not_pre_head rfl hc

/-- A colour literal whose `#` occurs only at its head cannot begin
inside `c :: a'` and spill across into a following `'#' :: hb`. -/
theorem pre_stop {pi : List Char} {c : Char} {a' hb : List Char}
    (hint : ∀ k, k < pi.length → 0 < k → ¬ (['#'] <+: pi.drop k))
    (hm : pi <+: (c :: a') ++ ('#' :: hb)) :
    pi.length ≤ (c :: a').length := by
  by_contra hk
  push_neg at hk
  rcases pre_split hm with hc1 | ⟨_, hc3⟩
  · have := hc1.length_le
    omega
  · have hne : pi.drop (c :: a').length ≠ [] := by
      intro h0
      have h1 := congrArg List.length h0
      rw [List.length_drop] at h1
      simp only [List.length_nil] at h1
      omega
    cases hx : pi.drop (c :: a').length with
    | nil => exact hne hx
    | cons x xs =>
      rw [hx, prefConsCons] at hc3
      apply hint (c :: a').length hk (by simp)
      rw [hx, hc3.1]
      exact ⟨xs, rfl⟩

theorem c10_aux : ∀ n (a b : List Char), a.length ≤ n →
    ("#f7c5adfff".toList) <:+:
      specTransform (a ++ ("#ffffff".toList ++ b)) := by
  intro n
  induction n with
  | zero =>
    intro a b ha
    have h0 : a = [] := List.eq_nil_of_length_eq_zero (Nat.le_zero.mp ha)
    subst h0
    rw [List.nil_append]
    have e : "#ffffff".toList ++ b = p4 ++ ("fff".toList ++ b) := rfl
    rw [e, spec_match4]
    have e2 : "fff".toList ++ b = 'f' :: ("ff".toList ++ b) := rfl
    have e3 : "ff".toList ++ b = 'f' :: ("f".toList ++ b) := rfl
    have e4 : "f".toList ++ b = 'f' :: b := rfl
    rw [e2, spec_cons_plain (by decide), e3, spec_cons_plain (by decide), e4,
      spec_cons_plain (by decide)]
    exact ⟨[], specTransform b, rfl⟩
  | succ n ih =>
    intro a b ha
    cases a with
    | nil =>
      rw [List.nil_append]
      have e : "#ffffff".toList ++ b = p4 ++ ("fff".toList ++ b) := rfl
      rw [e, spec_match4]
      have e2 : "fff".toList ++ b = 'f' :: ("ff".toList ++ b) := rfl
      have e3 : "ff".toList ++ b = 'f' :: ("f".toList ++ b) := rfl
      have e4 : "f".toList ++ b = 'f' :: b := rfl
      rw [e2, spec_cons_plain (by decide), e3, spec_cons_plain (by decide), e4,
        spec_cons_plain (by decide)]
      exact ⟨[], specTransform b, rfl⟩
    | cons c a' =>
      by_cases h1 : p1 <+: (c :: a') ++ ("#ffffff".toList ++ b)
      · have hlen : p1.length ≤ (c :: a').length :=
          pre_stop (by decide)
            (show p1 <+: (c :: a') ++ ('#' :: ("ffffff".toList ++ b)) from h1)
        obtain ⟨t, ht⟩ := h1
        have hdrop := congrArg (List.drop p1.length) ht
        rw [List.drop_left, List.drop_append_eq_append_drop,
          show p1.length - (c :: a').length = 0 from by omega,
          List.drop_zero] at hdrop
        rw [← ht, spec_match1]
        apply inf_extend
        rw [hdrop]
        refine ih _ b ?_
        rw [List.length_drop]
        have e : p1.length = 7 := rfl
        simp only [List.length_cons] at ha ⊢
        omega
      · by_cases h2 : p2 <+: (c :: a') ++ ("#ffffff".toList ++ b)
        · have hlen : p2.length ≤ (c :: a').length :=
            pre_stop (by decide)
              (show p2 <+: (c :: a') ++ ('#' :: ("ffffff".toList ++ b)) from h2)
          obtain ⟨t, ht⟩ := h2
          have hdrop := congrArg (List.drop p2.length) ht
          rw [List.drop_left, List.drop_append_eq_append_drop,
            show p2.length - (c :: a').length = 0 from by omega,
            List.drop_zero] at hdrop
          rw [← ht, spec_match2]
          apply inf_extend
          rw [hdrop]
          refine ih _ b ?_
          rw [List.length_drop]
          have e : p2.length = 7 := rfl
          simp only [List.length_cons] at ha ⊢
          omega
        · by_cases h3 : p3 <+: (c :: a') ++ ("#ffffff".toList ++ b)
          · have hlen : p3.length ≤ (c :: a').length :=
              pre_stop (by decide)
                (show p3 <+: (c :: a') ++ ('#' :: ("ffffff".toList ++ b)) from h3)
            obtain ⟨t, ht⟩ := h3
            have hdrop := congrArg (List.drop p3.length) ht
            rw [List.drop_left, List.drop_append_eq_append_drop,
              show p3.length - (c :: a').length = 0 from by omega,
              List.drop_zero] at hdrop
            rw [← ht, spec_match3]
            apply inf_extend
            rw [hdrop]
            refine ih _ b ?_
            rw [List.length_drop]
            have e : p3.length = 7 := rfl
            simp only [List.length_cons] at ha ⊢
            omega
          · by_cases h4 : p4 <+: (c :: a') ++ ("#ffffff".toList ++ b)
            · have hlen : p4.length ≤ (c :: a').length :=
                pre_stop (by decide)
                  (show p4 <+: (c :: a') ++ ('#' :: ("ffffff".toList ++ b))
                    from h4)
              obtain ⟨t, ht⟩ := h4
              have hdrop := congrArg (List.drop p4.length) ht
              rw [List.drop_left, List.drop_append_eq_append_drop,
                show p4.length - (c :: a').length = 0 from by omega,
                List.drop_zero] at hdrop
              rw [← ht, spec_match4]
              apply inf_extend
              rw [hdrop]
              refine ih _ b ?_
              rw [List.length_drop]
              have e : p4.length = 4 := rfl
              simp only [List.length_cons] at ha ⊢
              omega
            · have h1' : ¬ p1 <+: c :: (a' ++ ("#ffffff".toList ++ b)) := by
                rw [← List.cons_append]
                exact h1
              have h2' : ¬ p2 <+: c :: (a' ++ ("#ffffff".toList ++ b)) := by
                rw [← List.cons_append]
                exact h2
              have h3' : ¬ p3 <+: c :: (a' ++ ("#ffffff".toList ++ b)) := by
                rw [← List.cons_append]
                exact h3
              have h4' : ¬ p4 <+: c :: (a' ++ ("#ffffff".toList ++ b)) := by
                rw [← List.cons_append]
                exact h4
              rw [List.cons_append, spec_none h1' h2' h3' h4']
              apply inf_cons
              refine ih a' b ?_
              simp only [List.length_cons] at ha
              omega

/-- C10: `#fff` is matched as a plain substring, so the six-digit colour
`#ffffff` is rewritten by replacing its leading `#fff` and keeping the
remaining `fff`: every content containing `#ffffff` transforms to output
containing `#f7c5adfff` in its place, and the content `#ffffff` itself
maps exactly to `#f7c5adfff` (neither to `#f7c5ad` nor left unchanged). -/
theorem claim_C10 :
    (∀ a b : List Char,
        ("#f7c5adfff".toList) <:+:
          apply_mapping (a ++ ("#ffffff".toList ++ b))) ∧
      apply_mapping ("#ffffff".toList) = "#f7c5adfff".toList := by
  constructor
  · intro a b
    rw [apply_mapping_eq_specTransform]
    exact c10_aux a.length a b le_rfl
  · decide

end CreateDarkPanels
